import Mathlib

/-!
Verification of the frame-processing core of SMART_VEHICLE_ACCESS.

The definitions below are a shallow embedding of the Python sources under
`backend/`:
* string cleaning / validation / OCR orchestration from
  `backend/services/image_processing.py`,
* the tracked-box confidence assignment from the same file,
* the worker-side history reconciliation from
  `backend/services/worker_pool.py` (`model_worker`),
* the result-sink reconciliation and its history from
  `backend/services/result_processor.py`,
* frame submission from `backend/services/worker_pool.py`
  (`WorkerPool.submit_frame`).

Python floats are modelled as rationals (`ℚ`); the comparisons the theorems
depend on are far from the rounding error of the binary doubles they stand
for.  Python strings are modelled as `List Char` restricted to the ASCII
behaviour of `str.upper`, `str.strip`, `str.isalnum` and the regex class
`\d` (all plate texts the pipeline handles are ASCII digits).
-/

set_option autoImplicit false

namespace SVA

/-! ## Python string primitives used by `_clean_plate_text` -/

/-- A Python string, modelled as a list of characters. -/
abbrev PyStr := List Char

/-- `str.strip()`: remove leading and trailing whitespace. -/
def pyStrip (s : PyStr) : PyStr :=
  ((s.dropWhile Char.isWhitespace).reverse.dropWhile Char.isWhitespace).reverse

/-- `str.replace(old, new)` for single-character `old`/`new`: every
occurrence of `old` becomes `new`. -/
def replaceChar (old new : Char) (s : PyStr) : PyStr :=
  s.map fun c => if c = old then new else c

/-- The character-confusion table of `_clean_plate_text`
(image_processing.py:325-335), in its source (insertion) order. -/
def corrections : List (Char × Char) :=
  [('O', '0'), ('I', '1'), ('S', '5'), ('B', '8'), ('G', '6'),
   ('|', '1'), (']', '1'), ('J', '3'), ('A', '4')]

/-- `LicensePlateProcessor._clean_plate_text` (image_processing.py:310-344):
strip, uppercase, apply the confusion table one replacement at a time, then
keep only alphanumeric characters. -/
def clean_plate_text (text : PyStr) : PyStr :=
  let cleaned := (pyStrip text).map Char.toUpper
  let cleaned := corrections.foldl (fun acc p => replaceChar p.1 p.2 acc) cleaned
  cleaned.filter Char.isAlphanum

/-- The core of the pattern `\d{10,11}` spanning the whole string:
10 or 11 decimal digits. -/
def isTenOrElevenDigits (s : PyStr) : Bool :=
  (s.length == 10 || s.length == 11) && s.all Char.isDigit

/-- `LicensePlateProcessor._validate_plate_text` (image_processing.py:238-240):
`bool(re.compile(r'^\d{10,11}$').match(text))`.  In Python, `$` matches at
the end of the string or just before a single trailing newline, so the
pattern also accepts 10-11 digits followed by one final newline character. -/
def validate_plate_text (s : PyStr) : Bool :=
  isTenOrElevenDigits s ||
    (match s.getLast? with
     | some c => c == '\n' && isTenOrElevenDigits s.dropLast
     | none => false)

/-! ## `recognize_plate_text` (image_processing.py:242-298)

The EasyOCR and Tesseract backends are external capabilities; the embedding
takes their outputs as arguments: `easyocrResults` is the list of
`(text, confidence)` pairs returned by `reader.readtext` (the bounding box
component, unused by the source, is dropped), and `tesseractRaw` is the raw
string returned by `pytesseract.image_to_string`. -/

/-- Tag recording which backend produced a reading
(the `method` field of the returned dict). -/
inductive OcrMethod where
  | easyocr
  | tesseract
  | nothing
deriving DecidableEq, Repr

/-- The dict returned by `recognize_plate_text` (fields `text`,
`confidence`, `method`; `raw_text` is dropped as no claim mentions it). -/
structure OCRResult where
  text : PyStr
  confidence : ℚ
  method : OcrMethod
deriving DecidableEq, Repr

/-- Python `max(results, key=lambda x: x[2])`: first element of maximal
key; later elements win only when strictly greater. -/
def pyMaxByConf (l : List (PyStr × ℚ)) : Option (PyStr × ℚ) :=
  match l with
  | [] => none
  | h :: t => some (t.foldl (fun best x => if best.2 < x.2 then x else best) h)

/-- The Tesseract fallback of `recognize_plate_text`
(image_processing.py:277-298): strip the raw output; when it is non-empty
and the raw (not cleaned) text validates, return the cleaned text with the
fixed confidence `floor - 0.1`; otherwise the empty reading. -/
def tesseractFallback (ocrThreshold : ℚ) (tesseractRaw : PyStr) : OCRResult :=
  let tesseract_text := pyStrip tesseractRaw
  if tesseract_text ≠ [] then
    let cleaned_text := clean_plate_text tesseract_text
    if validate_plate_text tesseract_text then
      ⟨cleaned_text, ocrThreshold - 1/10, .tesseract⟩
    else ⟨[], 0, .nothing⟩
  else ⟨[], 0, .nothing⟩

/-- `LicensePlateProcessor.recognize_plate_text` (image_processing.py:242-298).
EasyOCR branch: take the highest-confidence reading; accept it when its
confidence reaches the floor and its cleaned text validates.  Otherwise run
the Tesseract fallback. -/
def recognize_plate_text (ocrThreshold : ℚ) (easyocrResults : List (PyStr × ℚ))
    (tesseractRaw : PyStr) : OCRResult :=
  match pyMaxByConf easyocrResults with
  | some best =>
      let cleaned_text := clean_plate_text best.1
      if ocrThreshold ≤ best.2 && validate_plate_text cleaned_text then
        ⟨cleaned_text, best.2, .easyocr⟩
      else tesseractFallback ocrThreshold tesseractRaw
  | none => tesseractFallback ocrThreshold tesseractRaw

/-! ## `detect_license_plates` (image_processing.py:104-159)

The YOLO detector and the SORT tracker are external capabilities: the
detector's output for the current frame is the `license_plates` list of
`[x1, y1, x2, y2, confidence]` rows (lines 123-128), and
`self.tracker.update(...)` returns rows `[x1, y1, x2, y2, id]`
(`tracked_plates`, line 133).  The embedding takes both lists as
arguments and performs the per-tracked-box confidence assignment of
lines 135-153 exactly as written. -/

/-- One raw detector box `[x1, y1, x2, y2, confidence]`. -/
structure Det where
  x1 : ℚ
  y1 : ℚ
  x2 : ℚ
  y2 : ℚ
  conf : ℚ
deriving DecidableEq, Repr

/-- One row of `tracker.update(...)`: `[x1, y1, x2, y2, id]`. -/
structure TrackedBox where
  x1 : ℚ
  y1 : ℚ
  x2 : ℚ
  y2 : ℚ
  id : ℚ
deriving DecidableEq, Repr

/-- Intersection area term of image_processing.py:138-142:
`max(0, min(x2, dx2) - max(x1, dx1)) * max(0, min(y2, dy2) - max(y1, dy1))`. -/
def inter (t : TrackedBox) (d : Det) : ℚ :=
  max 0 (min t.x2 d.x2 - max t.x1 d.x1) * max 0 (min t.y2 d.y2 - max t.y1 d.y1)

/-- The per-detection score of image_processing.py:137-144: intersection
over union with the `1e-6` regulariser in the denominator. -/
def iou (t : TrackedBox) (d : Det) : ℚ :=
  inter t d /
    ((t.x2 - t.x1) * (t.y2 - t.y1) + (d.x2 - d.x1) * (d.y2 - d.y1)
      - inter t d + 1/1000000)

/-- `np.argmax` on a list: index of the first occurrence of the maximum
(numpy's documented tie-breaking).  Returns 0 on the empty list, which the
source never hits (`ious` is built from a non-empty `license_plates`). -/
def argmaxIdx : List ℚ → Nat
  | [] => 0
  | [_] => 0
  | x :: y :: xs =>
      if (y :: xs).getD (argmaxIdx (y :: xs)) 0 ≤ x then 0
      else argmaxIdx (y :: xs) + 1

/-- Python `int(...)` on a rational: truncation toward zero. -/
def pyInt (q : ℚ) : ℤ := Int.tdiv q.num q.den

/-- One entry of the `detections` list built at image_processing.py:147-153. -/
structure PlateDict where
  id : ℚ
  bbox : ℤ × ℤ × ℤ × ℤ
  conf : ℚ
  width : ℚ
  height : ℚ
deriving DecidableEq, Repr

/-- The confidence assignment of image_processing.py:137-145 for one tracked
box: `license_plates[np.argmax(ious)][4] if len(ious) else 0.0`. -/
def assignConf (license_plates : List Det) (t : TrackedBox) : ℚ :=
  let ious := license_plates.map (iou t)
  if ious.length ≠ 0 then
    (license_plates.getD (argmaxIdx ious) ⟨0, 0, 0, 0, 0⟩).conf
  else 0

/-- `LicensePlateProcessor.detect_license_plates` (image_processing.py:104-159)
after the detector ran: when at least one raw box exists, the tracker output
is folded into the `detections` dict list with the confidence assignment;
with no raw boxes the tracker is never called and the result is empty. -/
def detect_license_plates (license_plates : List Det)
    (tracked_plates : List TrackedBox) : List PlateDict :=
  if 0 < license_plates.length then
    tracked_plates.map fun t =>
      { id := t.id
        bbox := (pyInt t.x1, pyInt t.y1, pyInt t.x2, pyInt t.y2)
        conf := assignConf license_plates t
        width := t.x2 - t.x1
        height := t.y2 - t.y1 }
  else []

/-! ## A model of `collections.OrderedDict` with natural-number keys

Both the worker-local history (worker_pool.py:44, tracker_manager.py:20)
and the sink history (result_processor.py:19) are `OrderedDict`s used
through `get`, item assignment, `popitem(last=False)` and `move_to_end`.
The model is the association list in iteration order: the head is the
oldest position, assignment to an existing key keeps its position,
assignment to a fresh key appends at the back. -/

/-- An `OrderedDict` with `Nat` keys, as its list of items in order. -/
abbrev OD (α : Type) := List (Nat × α)

namespace OD

/-- The keys in iteration order. -/
def keys {α : Type} (h : OD α) : List Nat := h.map Prod.fst

/-- Well-formedness: each key occurs at most once (true of every real dict). -/
def wf {α : Type} (h : OD α) : Prop := (keys h).Nodup

/-- `h.get(k)`: the value at `k`, or `None`. -/
def get {α : Type} (k : Nat) : OD α → Option α
  | [] => none
  | p :: t => if p.1 = k then some p.2 else get k t

/-- `h[k] = v`: replace in place when the key exists, else append. -/
def set {α : Type} (k : Nat) (v : α) : OD α → OD α
  | [] => [(k, v)]
  | p :: t => if p.1 = k then (k, v) :: t else p :: set k v t

/-- `h.popitem(last=False)`: drop the oldest item. -/
def popFront {α : Type} (h : OD α) : OD α := h.tail

/-- `h.move_to_end(k)`: move `k`'s item to the newest position; `none`
models the `KeyError` raised when `k` is absent. -/
def moveToEnd {α : Type} (k : Nat) (h : OD α) : Option (OD α) :=
  match get k h with
  | none => none
  | some v => some ((h.eraseP fun q => q.1 == k) ++ [(k, v)])

end OD

/-! ## Worker-side history reconciliation (worker_pool.py:58-68)

Inside `model_worker`, `history` is the camera's `OrderedDict` mapping a
track id to the pair `(ocr_result, ocr_confidence)`.  The source:

  prev_reading = history.get(id)
  if not prev_reading or prev_reading[1] <= ocr_confidence:
      history[id] = (ocr_result, ocr_confidence)
      if len(history) > settings.HISTORY_SIZE_THRESHOLD:
          history.popitem(last=False)
  else:
      ocr_result = prev_reading[0]
      ocr_confidence = prev_reading[1]
  history.move_to_end(id)

The stored pairs are non-empty tuples, hence always truthy: `not
prev_reading` is exactly "no entry".  `settings.HISTORY_SIZE_THRESHOLD` is
the `thr` argument.  `move_to_end` raises `KeyError` when the single
`popitem` evicted `id` itself (only possible with `thr = 0`); the mutations
made before the raise persist in the camera's history, the task is
abandoned, and the result of the step is `none`. -/

/-- The value stored per track id by `model_worker`. -/
abbrev WEntry := OCRResult × ℚ

/-- The store branch of the reconciliation (worker_pool.py:60-63 followed by
line 68): assign `history[id] = (ocr_result, ocr_confidence)`, pop the
oldest item when over the threshold, then `move_to_end(id)`. -/
def workerStore (thr : Nat) (history : OD WEntry) (id : Nat)
    (ocr : OCRResult) : OD WEntry × Option WEntry :=
  let h1 := OD.set id (ocr, ocr.confidence) history
  let h2 := if thr < h1.length then OD.popFront h1 else h1
  match OD.moveToEnd id h2 with
  | some h3 => (h3, some (ocr, ocr.confidence))
  | none => (h2, none)

/-- One history-reconciliation step of `model_worker` (worker_pool.py:58-68)
for track `id` with incoming reading `ocr`.  Returns the history after the
step together with `some (reading, confidence)` used downstream, or `none`
when `move_to_end` raised (the mutated history is still returned). -/
def workerReconcile (thr : Nat) (history : OD WEntry) (id : Nat)
    (ocr : OCRResult) : OD WEntry × Option WEntry :=
  match OD.get id history with
  | none => workerStore thr history id ocr
  | some prev =>
      if prev.2 ≤ ocr.confidence then workerStore thr history id ocr
      else
        match OD.moveToEnd id history with
        | some h3 => (h3, some prev)
        | none => (history, none)

/-! ## Result-sink reconciliation (result_processor.py:24-102)

`ResultProcessor.history` is an `OrderedDict` from track id to the mutable
list `[plate_text, confidence, detection_record_id]`.  The database and the
plate registry are the persistence collaborator; the embedding carries the
table of created detection records explicitly and models
`select(...).where(LicensePlate.plate_text.ilike(f"%{text}%"))` +
`scalar_one_or_none()` as: filter the registry by case-insensitive
containment of the detected text, then `none` on no row, the row when
unique, and an error (`MultipleResultsFound`, caught at line 101) on
several rows. -/

/-- The status enum of `backend/schemas/plate.py`. -/
inductive PlateStatus where
  | authorized
  | denied
  | unknown
  | pending
deriving DecidableEq, Repr

/-- Modelled from the spec: `PlateStatus.from_flags` is called at
result_processor.py:61,82 but is not defined in the sources under `src/`
(`backend/schemas/plate.py` declares the enum only).  The spec fixes its
behaviour: "derive status (blacklisted → denied, authorized → authorized,
else unknown)". -/
def PlateStatus.from_flags (is_authorized is_blacklisted : Bool) : PlateStatus :=
  if is_blacklisted then .denied
  else if is_authorized then .authorized
  else .unknown

/-- One row of the `LicensePlate` registry table, with the fields the sink
reads (`backend/models.py`). -/
structure RegPlate where
  pid : Nat
  plate_text : PyStr
  is_authorized : Bool
  is_blacklisted : Bool
deriving DecidableEq, Repr

/-- One `LicensePlateDetection` row as created/updated by the sink. -/
structure DbRecord where
  rid : Nat
  detected_plate_text : PyStr
  overall_confidence : ℚ
  status : PlateStatus
  detected_at : ℚ
  camera_id : Nat
  plate_id : Option Nat
deriving DecidableEq, Repr

/-- Case-insensitive containment, modelling `ilike(f"%{needle}%")`
(ASCII lowering). -/
def ciContains (hay needle : PyStr) : Bool :=
  decide (needle.map Char.toLower <:+: hay.map Char.toLower)

/-- Registry rows matching `plate_text.ilike(f"%{text}%")`. -/
def regMatches (reg : List RegPlate) (text : PyStr) : List RegPlate :=
  reg.filter fun p => ciContains p.plate_text text

/-- `scalar_one_or_none()`: no row, a unique row, or `MultipleResultsFound`. -/
def scalarOneOrNone (rows : List RegPlate) : Except Unit (Option RegPlate) :=
  match rows with
  | [] => .ok none
  | [p] => .ok (some p)
  | _ => .error ()

/-- The value of one sink-history entry: the mutable list
`[plate_text, confidence, detection_record_id]` (result_processor.py:99). -/
structure SinkEntry where
  text : PyStr
  conf : ℚ
  recId : Nat
deriving DecidableEq, Repr

/-- The per-detection input of the sink loop: `detection["id"]`,
`detection["ocr"]["text"]` and `detection["overall_confidence"]`. -/
structure SinkDetection where
  id : Nat
  text : PyStr
  overall_confidence : ℚ
deriving DecidableEq, Repr

/-- The sink's mutable state: its reconciliation history, the detection
records created so far, and the next fresh record id (autoincrement key). -/
structure SinkState where
  history : OD SinkEntry
  db : List DbRecord
  nextId : Nat
deriving DecidableEq, Repr

/-- One iteration of the per-detection body of
`ResultProcessor.result_handler` (result_processor.py:38-102) for detection
`d` of a result from `camera_id` at `timestamp`, against registry `reg`.

* empty text: skip (line 43-44);
* prior entry with a different text (lines 50-71): fetch the persisted
  record by the remembered id, re-resolve the registry row, update the
  record in place, mutate the history entry, commit, refresh recency.  A
  missing persisted record raises `AttributeError` and a multi-row registry
  match raises `MultipleResultsFound`; either is caught at line 101 before
  any mutation, leaving the state unchanged;
* prior entry with the same text (lines 73-75): refresh recency only;
* no prior entry (lines 77-100): resolve the registry row (a multi-row
  match again aborts unchanged), derive the status, insert a fresh record
  and remember `[text, confidence, record_id]` in the history. -/
def sinkStep (reg : List RegPlate) (camera_id : Nat) (timestamp : ℚ)
    (s : SinkState) (d : SinkDetection) : SinkState :=
  if d.text = [] then s
  else
    match OD.get d.id s.history with
    | some prev =>
        if prev.text ≠ d.text then
          match s.db.find? (fun r => r.rid == prev.recId),
                scalarOneOrNone (regMatches reg d.text) with
          | _, .error _ => s
          | none, .ok _ => s
          | some _, .ok plateOpt =>
              let newStatus : DbRecord → PlateStatus := fun r =>
                match plateOpt with
                | some p => PlateStatus.from_flags p.is_authorized p.is_blacklisted
                | none => r.status
              let db' := s.db.map fun r =>
                if r.rid = prev.recId then
                  { r with
                      status := newStatus r
                      detected_plate_text := d.text
                      overall_confidence := d.overall_confidence }
                else r
              let h1 := OD.set d.id ⟨d.text, d.overall_confidence, prev.recId⟩ s.history
              { s with
                  db := db'
                  history := (OD.moveToEnd d.id h1).getD h1 }
        else
          { s with history := (OD.moveToEnd d.id s.history).getD s.history }
    | none =>
        match scalarOneOrNone (regMatches reg d.text) with
        | .error _ => s
        | .ok plateOpt =>
            let plate_id := plateOpt.map RegPlate.pid
            let status :=
              match plateOpt with
              | some p => PlateStatus.from_flags p.is_authorized p.is_blacklisted
              | none => PlateStatus.unknown
            let newRec : DbRecord :=
              { rid := s.nextId
                detected_plate_text := d.text
                overall_confidence := d.overall_confidence
                status := status
                detected_at := timestamp
                camera_id := camera_id
                plate_id := plate_id }
            let h1 := OD.set d.id ⟨d.text, d.overall_confidence, s.nextId⟩ s.history
            { history := (OD.moveToEnd d.id h1).getD h1
              db := s.db ++ [newRec]
              nextId := s.nextId + 1 }

/-! ## Sink-history recency trace (result_processor.py:29-30, 70, 74, 100)

For the eviction-order claim the relevant footprint of the handler on its
`OrderedDict` is: an insertion (`self.history[id] = ...` followed by
`move_to_end`, lines 99-100) and a touch (`move_to_end` alone, lines 70 and
74, both reached only when the entry exists).  The idle-time maintenance
pass (lines 29-30) pops from the front while over the threshold. -/

/-- An operation of the sink on its reconciliation history. -/
inductive SinkOp (α : Type) where
  | ins (k : Nat) (v : α)
  | touch (k : Nat)
deriving DecidableEq, Repr

/-- The key an operation is about. -/
def SinkOp.key {α : Type} : SinkOp α → Nat
  | .ins k _ => k
  | .touch k => k

/-- Apply one history operation.  For `ins` the `move_to_end` always
succeeds (the key was just assigned); `touch` of an absent key would raise
in Python and is ruled out by `traceValid`. -/
def applySinkOp {α : Type} (h : OD α) : SinkOp α → OD α
  | .ins k v =>
      let h1 := OD.set k v h
      (OD.moveToEnd k h1).getD h1
  | .touch k => (OD.moveToEnd k h).getD h

/-- Run a list of history operations oldest first. -/
def runTrace {α : Type} (h : OD α) (tr : List (SinkOp α)) : OD α :=
  tr.foldl applySinkOp h

/-- A trace is valid from `h` when every `touch` hits a present key —
exactly how the handler uses `move_to_end` (guarded by `if prev`). -/
def traceValid {α : Type} (h : OD α) : List (SinkOp α) → Bool
  | [] => true
  | op :: t =>
      (match op with
       | .ins _ _ => true
       | .touch k => (OD.get k h).isSome) && traceValid (applySinkOp h op) t

/-- The maintenance pass of result_processor.py:29-30:
`while len(self.history) > threshold: self.history.popitem(last=False)`. -/
def sinkMaintain {α : Type} (thr : Nat) : OD α → OD α
  | [] => []
  | p :: t => if thr < (p :: t).length then sinkMaintain thr t else p :: t

/-- The key evicted first by the maintenance pass, when it evicts at all. -/
def firstEvictedKey {α : Type} (thr : Nat) (h : OD α) : Option Nat :=
  if thr < h.length then h.head?.map Prod.fst else none

/-- The position of the last operation concerning key `k` in a trace
(its most recent touch), if any. -/
def lastTouchIdx {α : Type} : List (SinkOp α) → Nat → Option Nat
  | [], _ => none
  | op :: t, k =>
      match lastTouchIdx t k with
      | some i => some (i + 1)
      | none => if op.key = k then some 0 else none

/-- The position of the first `ins` of key `k` in a trace (its insertion
time), if any. -/
def firstInsIdx {α : Type} (tr : List (SinkOp α)) (k : Nat) : Option Nat :=
  tr.findIdx? fun op =>
    match op with
    | .ins k' _ => k' == k
    | .touch _ => false

/-! ## `WorkerPool.submit_frame` (worker_pool.py:104-137)

The pool owns `num_workers` bounded input queues
(`mp.Queue(maxsize=100)`, line 109).  `submit_frame` targets the queue
`camera_id % self.num_workers` and calls `put_nowait`; the bare `except`
turns a full queue (or a zero-size pool, where `%` raises
`ZeroDivisionError`) into `return False` with no state change. -/

/-- The task dict enqueued by `submit_frame` (worker_pool.py:130-134);
the frame buffer is abstracted to a tag. -/
structure SubmitTask where
  camera_id : Nat
  frame : Nat
  timestamp : ℚ
deriving DecidableEq, Repr

/-- `mp.Queue(maxsize=100)` (worker_pool.py:109). -/
def queueCapacity : Nat := 100

/-- The pool state: one bounded FIFO per worker, oldest task first. -/
structure PoolState where
  input_queues : List (List SubmitTask)
deriving DecidableEq, Repr

/-- `WorkerPool.submit_frame` (worker_pool.py:125-137). -/
def submit_frame (p : PoolState) (camera_id frame : Nat) (timestamp : ℚ) :
    Bool × PoolState :=
  if p.input_queues.length = 0 then (false, p)
  else
    let worker_id := camera_id % p.input_queues.length
    let q := p.input_queues.getD worker_id []
    if q.length < queueCapacity then
      (true,
       ⟨p.input_queues.set worker_id (q ++ [⟨camera_id, frame, timestamp⟩])⟩)
    else (false, p)

/-! ## The worker's per-task call into detection (worker_pool.py:31-99)

`model_worker` keeps a `CameraTrackerManager` (tracker_manager.py): a dict
of per-camera SORT tracker instances and a dict of per-camera history
`OrderedDict`s, both created on first access.  The SORT implementation
(`backend/services/sort/sort.py`) is imported but not present under `src/`;
the spec treats it as a capability "update(detections) → list of
(bbox, track_id)", so a tracker instance is modelled (from the spec) as the
list of detection batches it has been fed.

The task body first fetches the camera's tracker and history (lines 43-44,
creating them on first use) and then executes
`processor.detect_license_plates(frame, tracker)` (line 46).  The method
`LicensePlateProcessor.detect_license_plates` (image_processing.py:104) is
declared with the single parameter `image` besides `self`; a Python call
with two positional arguments raises `TypeError` before the body runs.
The worker's `except Exception` (line 98) catches it, the task is
abandoned and no result is emitted. -/

/-- Modelled from the spec: the internal state of one SORT tracker instance
(`backend/services/sort/sort.py`, imported at tracker_manager.py:1 but not
present under `src/`); the spec's capability view is "update(detections) →
list of (bbox, track_id)", so the instance is modelled as the batches of
detections it has been fed. -/
structure SortTracker where
  fedBatches : List (List Det)
deriving DecidableEq, Repr

/-- `Sort()` (tracker_manager.py:15): a fresh tracker fed nothing. -/
def SortTracker.new : SortTracker := ⟨[]⟩

/-- The errors a Python call can raise in this model. -/
inductive PyError where
  | typeError
deriving DecidableEq, Repr

/-- A Python positional call: when the number of supplied arguments differs
from the callee's parameter count, the call raises `TypeError` and the body
never runs. -/
def pyCall {α : Type} (paramCount argCount : Nat) (body : Unit → α) :
    Except PyError α :=
  if argCount = paramCount then .ok (body ()) else .error .typeError

/-- Parameter count of `LicensePlateProcessor.detect_license_plates`
besides `self`: `def detect_license_plates(self, image)`
(image_processing.py:104). -/
def detect_license_plates_paramCount : Nat := 1

/-- Argument count at the call site
`processor.detect_license_plates(frame, tracker)` (worker_pool.py:46). -/
def model_worker_detect_argCount : Nat := 2

/-- The per-worker state: the tracker manager's `_trackers` and `_history`
dicts (tracker_manager.py:9-10) plus the results emitted so far. -/
structure WorkerState where
  trackers : OD SortTracker
  histories : OD (OD WEntry)
  outputs : List Nat
deriving Repr

/-- `CameraTrackerManager.get_tracker` (tracker_manager.py:12-16):
create a fresh tracker for the camera on first access. -/
def getTrackerEnsure (camera_id : Nat) (s : WorkerState) : WorkerState :=
  match OD.get camera_id s.trackers with
  | some _ => s
  | none => { s with trackers := OD.set camera_id SortTracker.new s.trackers }

/-- `CameraTrackerManager.get_history` (tracker_manager.py:18-21). -/
def getHistoryEnsure (camera_id : Nat) (s : WorkerState) : WorkerState :=
  match OD.get camera_id s.histories with
  | some _ => s
  | none => { s with histories := OD.set camera_id ([] : OD WEntry) s.histories }

/-- One iteration of the `model_worker` loop (worker_pool.py:31-99) on a
dequeued task for `camera_id`, with `frameDets` the detector's raw boxes
for the frame and `trackedOut` what the camera's tracker would return were
it ever fed.  After the per-camera tracker and history are fetched (created
if absent), the two-argument call into the one-parameter
`detect_license_plates` raises `TypeError`; `except Exception` catches it
and the loop continues with no output.  The `.ok` branch is unreachable for
the source's argument count; it records an emitted result and is kept only
to make the call model total. -/
def model_worker_step (s : WorkerState) (camera_id : Nat)
    (frameDets : List Det) (trackedOut : List TrackedBox) :
    WorkerState × Option Nat :=
  let s1 := getHistoryEnsure camera_id (getTrackerEnsure camera_id s)
  match pyCall detect_license_plates_paramCount model_worker_detect_argCount
      (fun _ => detect_license_plates frameDets trackedOut) with
  | .error _ => (s1, none)
  | .ok plates => ({ s1 with outputs := s1.outputs ++ [camera_id] }, some plates.length)

/-! ## Lemmas about the `OrderedDict` model -/

namespace OD

variable {α : Type}

theorem get_none_of_not_mem {k : Nat} {h : OD α} (hk : k ∉ keys h) :
    get k h = none := by
  induction h with
  | nil => rfl
  | cons p t ih =>
      simp only [keys, List.map_cons, List.mem_cons, not_or] at hk
      simp only [get, if_neg (Ne.symm hk.1)]
      exact ih hk.2

theorem mem_of_get_some {k : Nat} {v : α} {h : OD α} (hg : get k h = some v) :
    k ∈ keys h := by
  by_contra hk
  rw [get_none_of_not_mem hk] at hg
  exact Option.noConfusion hg

theorem get_set_self (k : Nat) (v : α) (h : OD α) : get k (set k v h) = some v := by
  induction h with
  | nil => simp [set, get]
  | cons p t ih =>
      by_cases hp : p.1 = k
      · simp [set, hp, get]
      · simp [set, hp, get, ih]

theorem get_set_ne (k k' : Nat) (v : α) (h : OD α) (hne : k' ≠ k) :
    get k' (set k v h) = get k' h := by
  induction h with
  | nil => simp [set, get, if_neg (Ne.symm hne)]
  | cons p t ih =>
      by_cases hp : p.1 = k
      · subst hp
        simp [set, get, if_neg (Ne.symm hne)]
      · simp only [set, if_neg hp, get]
        by_cases hp' : p.1 = k'
        · simp [hp']
        · simp [hp', ih]

theorem keys_set_of_mem {k : Nat} (v : α) {h : OD α} (hm : k ∈ keys h) :
    keys (set k v h) = keys h := by
  induction h with
  | nil => simp [keys] at hm
  | cons p t ih =>
      by_cases hp : p.1 = k
      · simp [set, hp, keys]
      · simp only [keys, List.map_cons, List.mem_cons] at hm
        rcases hm with hm | hm
        · exact absurd hm.symm hp
        · have hrec := ih (by simpa [keys] using hm)
          simp only [set, if_neg hp, keys, List.map_cons]
          exact congrArg (fun l => p.1 :: l) (by simpa [keys] using hrec)

theorem keys_set_of_not_mem {k : Nat} (v : α) {h : OD α} (hm : k ∉ keys h) :
    keys (set k v h) = keys h ++ [k] := by
  induction h with
  | nil => simp [set, keys]
  | cons p t ih =>
      simp only [keys, List.map_cons, List.mem_cons, not_or] at hm
      have hrec := ih (by simpa [keys] using hm.2)
      simp only [set, if_neg (Ne.symm hm.1), keys, List.map_cons, List.cons_append]
      exact congrArg (fun l => p.1 :: l) (by simpa [keys] using hrec)

theorem wf_set {k : Nat} {v : α} {h : OD α} (hw : wf h) : wf (set k v h) := by
  by_cases hm : k ∈ keys h
  · unfold wf
    rw [keys_set_of_mem v hm]
    exact hw
  · unfold wf
    rw [keys_set_of_not_mem v hm]
    simpa [List.nodup_append] using ⟨hw, hm⟩

theorem wf_popFront {h : OD α} (hw : wf h) : wf (popFront h) := by
  cases h with
  | nil => exact hw
  | cons p t =>
      simp only [wf, keys, List.map_cons, List.nodup_cons] at hw
      exact hw.2

theorem get_popFront_some {k : Nat} {v : α} {h : OD α} (hw : wf h)
    (hg : get k (popFront h) = some v) : get k h = some v := by
  cases h with
  | nil => exact hg
  | cons p t =>
      simp only [popFront, List.tail_cons] at hg
      simp only [wf, keys, List.map_cons, List.nodup_cons] at hw
      have hne : p.1 ≠ k := by
        intro he
        subst he
        rw [get_none_of_not_mem hw.1] at hg
        exact Option.noConfusion hg
      simp [get, hne, hg]

theorem keys_eraseP (k : Nat) (h : OD α) :
    keys (h.eraseP fun q => q.1 == k) = (keys h).erase k := by
  induction h with
  | nil => rfl
  | cons p t ih =>
      by_cases hp : p.1 = k
      · simp only [List.eraseP_cons, hp, beq_self_eq_true, cond_true, keys,
          List.map_cons, List.erase_cons_head]
      · have hb : (p.1 == k) = false := by simpa using hp
        simp only [List.eraseP_cons, hb, cond_false, keys, List.map_cons,
          List.erase_cons, hb, if_false]
        exact congrArg (fun l => p.1 :: l) (by simpa [keys] using ih)

theorem get_eraseP_ne (k k' : Nat) (h : OD α) (hne : k' ≠ k) :
    get k' (h.eraseP fun q => q.1 == k) = get k' h := by
  induction h with
  | nil => rfl
  | cons p t ih =>
      by_cases hp : p.1 = k
      · have hb : (p.1 == k) = true := by simpa using hp
        subst hp
        simp [List.eraseP_cons, hb, get, if_neg (Ne.symm hne)]
      · have hb : (p.1 == k) = false := by simpa using hp
        simp only [List.eraseP_cons, hb, cond_false, get]
        by_cases hp' : p.1 = k'
        · simp [hp']
        · simp [hp', ih]

theorem get_eraseP_self {k : Nat} {h : OD α} (hw : wf h) :
    get k (h.eraseP fun q => q.1 == k) = none := by
  induction h with
  | nil => rfl
  | cons p t ih =>
      simp only [wf, keys, List.map_cons, List.nodup_cons] at hw
      by_cases hp : p.1 = k
      · subst hp
        simp only [List.eraseP_cons, beq_self_eq_true, cond_true]
        exact get_none_of_not_mem hw.1
      · simp [List.eraseP_cons, hp, get, ih hw.2]

theorem get_append (k : Nat) (l1 l2 : OD α) :
    get k (l1 ++ l2) =
      match get k l1 with
      | some v => some v
      | none => get k l2 := by
  induction l1 with
  | nil => rfl
  | cons p t ih =>
      by_cases hp : p.1 = k
      · simp [get, hp]
      · simp [get, hp, ih]

theorem moveToEnd_eq_some {k : Nat} {h : OD α} {v : α} (hg : get k h = some v) :
    moveToEnd k h = some ((h.eraseP fun q => q.1 == k) ++ [(k, v)]) := by
  simp [moveToEnd, hg]

theorem moveToEnd_none_cases {k : Nat} {h : OD α}
    (hm : moveToEnd k h = none) : get k h = none := by
  unfold moveToEnd at hm
  cases hg : get k h with
  | none => rfl
  | some v => rw [hg] at hm; exact Option.noConfusion hm

theorem get_moveToEnd {k : Nat} {h h' : OD α} (hw : wf h)
    (hm : moveToEnd k h = some h') (k' : Nat) : get k' h' = get k' h := by
  cases hg : get k h with
  | none => simp [moveToEnd, hg] at hm
  | some v =>
      simp only [moveToEnd, hg, Option.some.injEq] at hm
      subst hm
      rw [get_append]
      by_cases hk : k' = k
      · subst hk
        rw [get_eraseP_self hw]
        simp [get, hg]
      · rw [get_eraseP_ne k k' h hk]
        cases hg' : get k' h with
        | some w => rfl
        | none => simp [get, Ne.symm hk]

theorem keys_moveToEnd {k : Nat} {h h' : OD α}
    (hm : moveToEnd k h = some h') : keys h' = (keys h).erase k ++ [k] := by
  cases hg : get k h with
  | none => simp [moveToEnd, hg] at hm
  | some v =>
      simp only [moveToEnd, hg, Option.some.injEq] at hm
      subst hm
      have := keys_eraseP k h
      simp only [keys, List.map_append, List.map_cons, List.map_nil] at this ⊢
      rw [this]

theorem wf_moveToEnd {k : Nat} {h h' : OD α} (hw : wf h)
    (hm : moveToEnd k h = some h') : wf h' := by
  have hk := keys_moveToEnd hm
  unfold wf at hw ⊢
  rw [hk]
  have h1 : ((keys h).erase k).Nodup := hw.erase k
  have h2 : k ∉ (keys h).erase k := fun ha =>
    ((List.Nodup.mem_erase_iff hw).1 ha).1 rfl
  simp [List.nodup_append, h1, h2]

end OD

/-! ## Lemmas about cleaning and validation -/

theorem toUpper_digit {c : Char} (h : c.isDigit = true) : c.toUpper = c := by
  simp only [Char.isDigit, Bool.and_eq_true, decide_eq_true_eq] at h
  have h3 : c.toNat ≤ 57 := UInt32.toNat_le_of_le (by norm_num) h.2
  simp only [Char.toUpper]
  rw [if_neg]
  omega

theorem not_whitespace_of_digit {c : Char} (h : c.isDigit = true) :
    c.isWhitespace = false := by
  rcases hw : c.isWhitespace with _ | _
  · rfl
  · exfalso
    simp only [Char.isWhitespace, Bool.or_eq_true, decide_eq_true_eq] at hw
    rcases hw with ((h1 | h1) | h1) | h1 <;> (subst h1; exact absurd h (by decide))

theorem alnum_of_digit {c : Char} (h : c.isDigit = true) : c.isAlphanum = true := by
  simp [Char.isAlphanum, h]

theorem dropWhile_eq_self_of_all_false {p : Char → Bool} {s : PyStr}
    (hs : ∀ c ∈ s, p c = false) : s.dropWhile p = s := by
  cases s with
  | nil => rfl
  | cons c t => simp [List.dropWhile_cons, hs c (List.mem_cons_self c t)]

theorem pyStrip_all_digit {s : PyStr} (hs : s.all Char.isDigit = true) :
    pyStrip s = s := by
  simp only [List.all_eq_true] at hs
  unfold pyStrip
  rw [dropWhile_eq_self_of_all_false (fun c hc => not_whitespace_of_digit (hs c hc))]
  rw [dropWhile_eq_self_of_all_false
    (fun c hc => not_whitespace_of_digit (hs c (List.mem_reverse.1 hc)))]
  exact List.reverse_reverse s

theorem map_toUpper_all_digit {s : PyStr} (hs : s.all Char.isDigit = true) :
    s.map Char.toUpper = s := by
  induction s with
  | nil => rfl
  | cons c t ih =>
      simp only [List.all_cons, Bool.and_eq_true] at hs
      simp [toUpper_digit hs.1, ih hs.2]

theorem replaceChar_all_digit {old new : Char} {s : PyStr}
    (hold : old.isDigit = false) (hs : s.all Char.isDigit = true) :
    replaceChar old new s = s := by
  induction s with
  | nil => rfl
  | cons c t ih =>
      simp only [List.all_cons, Bool.and_eq_true] at hs
      have hc : ¬(c = old) := fun he => by
        subst he
        rw [hs.1] at hold
        exact Bool.noConfusion hold
      simp only [replaceChar, List.map_cons, if_neg hc]
      have := ih hs.2
      simp only [replaceChar] at this
      rw [this]

theorem replaceChar_preserves_all_digit {old new : Char} {s : PyStr}
    (hold : old.isDigit = false) (hs : s.all Char.isDigit = true) :
    (replaceChar old new s).all Char.isDigit = true := by
  rw [replaceChar_all_digit hold hs]
  exact hs

theorem corrections_fold_all_digit {s : PyStr} (hs : s.all Char.isDigit = true) :
    corrections.foldl (fun acc p => replaceChar p.1 p.2 acc) s = s := by
  simp only [corrections, List.foldl_cons, List.foldl_nil]
  rw [replaceChar_all_digit (by decide) hs, replaceChar_all_digit (by decide) hs,
    replaceChar_all_digit (by decide) hs, replaceChar_all_digit (by decide) hs,
    replaceChar_all_digit (by decide) hs, replaceChar_all_digit (by decide) hs,
    replaceChar_all_digit (by decide) hs, replaceChar_all_digit (by decide) hs,
    replaceChar_all_digit (by decide) hs]

theorem filter_alnum_all_digit {s : PyStr} (hs : s.all Char.isDigit = true) :
    s.filter Char.isAlphanum = s := by
  rw [List.filter_eq_self]
  intro c hc
  exact alnum_of_digit ((List.all_eq_true.1 hs) c hc)

/-- An all-digit string is a fixed point of `_clean_plate_text`. -/
theorem clean_plate_text_all_digit {s : PyStr} (hs : s.all Char.isDigit = true) :
    clean_plate_text s = s := by
  unfold clean_plate_text
  simp only [pyStrip_all_digit hs, map_toUpper_all_digit hs,
    corrections_fold_all_digit hs, filter_alnum_all_digit hs]

theorem all_digit_of_isTenOrEleven {s : PyStr} (h : isTenOrElevenDigits s = true) :
    s.all Char.isDigit = true := by
  simp only [isTenOrElevenDigits, Bool.and_eq_true] at h
  exact h.2

theorem clean_all_alnum (s : PyStr) :
    (clean_plate_text s).all Char.isAlphanum = true := by
  unfold clean_plate_text
  rw [List.all_eq_true]
  intro c hc
  exact (List.mem_filter.1 hc).2

theorem validate_eq_core_of_all_alnum {s : PyStr}
    (hs : s.all Char.isAlphanum = true) :
    validate_plate_text s = isTenOrElevenDigits s := by
  unfold validate_plate_text
  cases hl : s.getLast? with
  | none => simp
  | some c =>
      have hc : c ∈ s := List.mem_of_getLast?_eq_some hl
      have hcal : c.isAlphanum = true := (List.all_eq_true.1 hs) c hc
      have hcn : ¬(c = '\n') := fun he => by
        subst he
        exact absurd hcal (by decide)
      simp [hcn]

theorem validate_eq_core_of_last_not_ws {s : PyStr}
    (hs : ∀ c, s.getLast? = some c → c.isWhitespace = false) :
    validate_plate_text s = isTenOrElevenDigits s := by
  unfold validate_plate_text
  cases hl : s.getLast? with
  | none => simp
  | some c =>
      have hcn : ¬(c = '\n') := fun he => by
        subst he
        exact absurd (hs _ hl) (by decide)
      simp [hcn]

theorem head_dropWhile_false {p : Char → Bool} :
    ∀ {s : PyStr} {c : Char}, (s.dropWhile p).head? = some c → p c = false
  | [], c, h => by simp [List.dropWhile] at h
  | a :: t, c, h => by
      by_cases hp : p a = true
      · rw [List.dropWhile_cons, if_pos hp] at h
        exact head_dropWhile_false h
      · rw [List.dropWhile_cons, if_neg hp] at h
        simp only [List.head?_cons, Option.some.injEq] at h
        subst h
        exact Bool.eq_false_iff.2 hp

/-- The stripped string never ends in whitespace. -/
theorem pyStrip_last_not_ws {s : PyStr} {c : Char}
    (h : (pyStrip s).getLast? = some c) : c.isWhitespace = false := by
  unfold pyStrip at h
  rw [List.getLast?_reverse] at h
  exact head_dropWhile_false h

theorem eq_dropLast_append_of_getLast? {s : PyStr} {c : Char}
    (h : s.getLast? = some c) : s = s.dropLast ++ [c] := by
  have hne : s ≠ [] := by
    intro he
    subst he
    exact Option.noConfusion h
  have h2 : s.getLast hne = c := by
    have := List.getLast?_eq_getLast s hne
    rw [h] at this
    exact (Option.some.injEq _ _ ▸ this).symm
  conv_lhs => rw [← List.dropLast_append_getLast hne]
  rw [h2]

/-- The fallback either yields the empty reading or accepts the stripped
raw Tesseract text. -/
theorem fallback_cases (thr : ℚ) (tess : PyStr) :
    tesseractFallback thr tess = ⟨[], 0, .nothing⟩ ∨
    (pyStrip tess ≠ [] ∧ validate_plate_text (pyStrip tess) = true ∧
      tesseractFallback thr tess =
        ⟨clean_plate_text (pyStrip tess), thr - 1/10, .tesseract⟩) := by
  unfold tesseractFallback
  by_cases ht : pyStrip tess = []
  · left
    simp [ht]
  · by_cases hv : validate_plate_text (pyStrip tess) = true
    · right
      exact ⟨ht, hv, by simp [ht, hv]⟩
    · left
      simp [ht, hv]

/-- Every run of `recognize_plate_text` ends in exactly one of three ways:
the empty reading, an accepted EasyOCR reading, or the Tesseract fallback. -/
theorem recognize_cases (thr : ℚ) (easy : List (PyStr × ℚ)) (tess : PyStr) :
    recognize_plate_text thr easy tess = ⟨[], 0, .nothing⟩ ∨
    (∃ best, pyMaxByConf easy = some best ∧ thr ≤ best.2 ∧
      validate_plate_text (clean_plate_text best.1) = true ∧
      recognize_plate_text thr easy tess =
        ⟨clean_plate_text best.1, best.2, .easyocr⟩) ∨
    (pyStrip tess ≠ [] ∧ validate_plate_text (pyStrip tess) = true ∧
      recognize_plate_text thr easy tess =
        ⟨clean_plate_text (pyStrip tess), thr - 1/10, .tesseract⟩) := by
  rcases hm : pyMaxByConf easy with _ | best
  · have heq : recognize_plate_text thr easy tess = tesseractFallback thr tess := by
      simp [recognize_plate_text, hm]
    rcases fallback_cases thr tess with hf | hf
    · exact Or.inl (heq.trans hf)
    · exact Or.inr (Or.inr ⟨hf.1, hf.2.1, heq.trans hf.2.2⟩)
  · by_cases hacc :
      (decide (thr ≤ best.2) && validate_plate_text (clean_plate_text best.1)) = true
    · have heq : recognize_plate_text thr easy tess =
          ⟨clean_plate_text best.1, best.2, .easyocr⟩ := by
        simp only [recognize_plate_text, hm]
        rw [if_pos hacc]
      have hc := hacc
      simp only [Bool.and_eq_true, decide_eq_true_eq] at hc
      exact Or.inr (Or.inl ⟨best, rfl, hc.1, hc.2, heq⟩)
    · have heq : recognize_plate_text thr easy tess = tesseractFallback thr tess := by
        simp only [recognize_plate_text, hm]
        rw [if_neg hacc]
      rcases fallback_cases thr tess with hf | hf
      · exact Or.inl (heq.trans hf)
      · exact Or.inr (Or.inr ⟨hf.1, hf.2.1, heq.trans hf.2.2⟩)

/-- An accepted EasyOCR reading has a 10-11 digit cleaned text. -/
theorem easy_text_digits {x : PyStr}
    (hv : validate_plate_text (clean_plate_text x) = true) :
    isTenOrElevenDigits (clean_plate_text x) = true := by
  rw [validate_eq_core_of_all_alnum (clean_all_alnum x)] at hv
  exact hv

/-- An accepted Tesseract reading is all digits and is its own cleaning. -/
theorem tess_text_digits {t : PyStr}
    (hv : validate_plate_text (pyStrip t) = true) :
    isTenOrElevenDigits (pyStrip t) = true ∧
      clean_plate_text (pyStrip t) = pyStrip t := by
  rw [validate_eq_core_of_last_not_ws (fun c hc => pyStrip_last_not_ws hc)] at hv
  exact ⟨hv, clean_plate_text_all_digit (all_digit_of_isTenOrEleven hv)⟩

/-- C10: every reading returned by `recognize_plate_text` with non-empty
text consists of exactly 10 or 11 digit characters — in the EasyOCR branch
because the cleaned text itself is validated, and in the Tesseract fallback
because the validated raw text is all-digit and the cleaning function maps
an all-digit string to itself. -/
theorem C10_ocr_output_shape (thr : ℚ) (easy : List (PyStr × ℚ)) (tess : PyStr)
    (hne : (recognize_plate_text thr easy tess).text ≠ []) :
    isTenOrElevenDigits (recognize_plate_text thr easy tess).text = true := by
  rcases recognize_cases thr easy tess with h | ⟨best, _, _, hv, h⟩ | ⟨_, hv, h⟩
  · rw [h] at hne
    exact absurd rfl hne
  · rw [h]
    exact easy_text_digits hv
  · have hd := tess_text_digits hv
    have htext : (recognize_plate_text thr easy tess).text = pyStrip tess := by
      rw [h, hd.2]
    rw [htext]
    exact hd.1

/-- Evaluation of `recognize_plate_text` at the concrete accepted EasyOCR
reading used by the C10 witness. -/
theorem recognize_eval_easy :
    recognize_plate_text (45/100) [("1234567890".toList, 1/2)] [] =
      ⟨"1234567890".toList, 1/2, .easyocr⟩ := by
  have hmax : pyMaxByConf [("1234567890".toList, 1/2)] =
      some ("1234567890".toList, 1/2) := rfl
  have hcl : clean_plate_text "1234567890".toList = "1234567890".toList := by decide
  have hval : validate_plate_text "1234567890".toList = true := by decide
  have hcond :
      (decide ((45 : ℚ)/100 ≤ (("1234567890".toList, (1 : ℚ)/2)).2) &&
        validate_plate_text (clean_plate_text (("1234567890".toList, (1 : ℚ)/2)).1)) = true := by
    rw [hcl, hval]
    simp only [Bool.and_true, decide_eq_true_eq]
    norm_num
  simp only [recognize_plate_text, hmax]
  rw [if_pos hcond, hcl]

/-- Witness for C10 at a concrete accepted EasyOCR reading. -/
theorem C10_ocr_output_shape_witness :
    (recognize_plate_text (45/100) [("1234567890".toList, 1/2)] []).text ≠ [] ∧
    isTenOrElevenDigits
      (recognize_plate_text (45/100) [("1234567890".toList, 1/2)] []).text = true := by
  constructor
  · rw [recognize_eval_easy]
    decide
  · exact C10_ocr_output_shape (45/100) [("1234567890".toList, 1/2)] []
      (by rw [recognize_eval_easy]; decide)

/-- C5 counterexample: with the configured floor 0.45
(`OCR_CONFIDENCE_THRESHOLD`, config.py:52), empty EasyOCR output and the
11-digit Tesseract raw text "12345678901", `recognize_plate_text` returns a
reading with non-empty text whose confidence 0.35 is strictly below the
floor — refuting that every non-empty reading has confidence at or above
the floor. -/
theorem C5_counterexample :
    (recognize_plate_text (45/100) [] "12345678901".toList).text ≠ [] ∧
    (recognize_plate_text (45/100) [] "12345678901".toList).confidence < 45/100 := by
  have hs : pyStrip "12345678901".toList = "12345678901".toList := by decide
  have hv : validate_plate_text "12345678901".toList = true := by decide
  have hne : "12345678901".toList ≠ [] := by decide
  have heval : recognize_plate_text (45/100) [] "12345678901".toList =
      ⟨clean_plate_text "12345678901".toList, 45/100 - 1/10, .tesseract⟩ := by
    show tesseractFallback (45/100) "12345678901".toList = _
    simp only [tesseractFallback, hs, ne_eq, hne, not_false_iff, if_true, hv]
  rw [heval]
  constructor
  · show clean_plate_text "12345678901".toList ≠ []
    decide
  · show (45 : ℚ)/100 - 1/10 < 45/100
    norm_num

/-- C5 (amended): every reading returned by `recognize_plate_text` is either
the empty reading with confidence 0, or has 10-11-digit validated text and
confidence either at/above the floor (EasyOCR branch) or exactly
`floor - 0.1` (Tesseract fallback, which sits below the floor). -/
theorem C5_amended (thr : ℚ) (easy : List (PyStr × ℚ)) (tess : PyStr) :
    ((recognize_plate_text thr easy tess).text = [] ∧
      (recognize_plate_text thr easy tess).confidence = 0) ∨
    (isTenOrElevenDigits (recognize_plate_text thr easy tess).text = true ∧
      (thr ≤ (recognize_plate_text thr easy tess).confidence ∨
        (recognize_plate_text thr easy tess).confidence = thr - 1/10)) := by
  rcases recognize_cases thr easy tess with h | ⟨best, _, hle, hv, h⟩ | ⟨_, hv, h⟩
  · left
    rw [h]
    exact ⟨rfl, rfl⟩
  · right
    rw [h]
    exact ⟨easy_text_digits hv, Or.inl hle⟩
  · right
    have hd := tess_text_digits hv
    have htext : (recognize_plate_text thr easy tess).text = pyStrip tess := by
      rw [h, hd.2]
    constructor
    · rw [htext]
      exact hd.1
    · right
      rw [h]

/-- C8 counterexample: `_validate_plate_text` accepts "1234567890\n"
(Python's `$` matches just before a single trailing newline), which is not
a string of 10 to 11 digits — refuting "accepts exactly strings of 10 to
11 digits". -/
theorem C8_counterexample :
    validate_plate_text ("1234567890".toList ++ ['\n']) = true ∧
    isTenOrElevenDigits ("1234567890".toList ++ ['\n']) = false := by
  constructor
  · decide
  · decide

/-- C8 (amended): cleaning maps the all-digit "123456789012" to itself and
"O12345678I" to "0123456781"; the plate-format validation accepts exactly
the strings of 10 to 11 digits optionally followed by one trailing
newline. -/
theorem C8_amended :
    clean_plate_text "123456789012".toList = "123456789012".toList ∧
    clean_plate_text "O12345678I".toList = "0123456781".toList ∧
    ∀ s : PyStr, validate_plate_text s = true ↔
      (isTenOrElevenDigits s = true ∨
        ∃ t, s = t ++ ['\n'] ∧ isTenOrElevenDigits t = true) := by
  refine ⟨by decide, by decide, ?_⟩
  intro s
  constructor
  · intro hv
    unfold validate_plate_text at hv
    simp only [Bool.or_eq_true] at hv
    rcases hv with hcore | hq
    · exact Or.inl hcore
    · cases hl : s.getLast? with
      | none => simp [hl] at hq
      | some c =>
          simp only [hl, Bool.and_eq_true, beq_iff_eq] at hq
          right
          refine ⟨s.dropLast, ?_, hq.2⟩
          have hsplit := eq_dropLast_append_of_getLast? hl
          rw [hq.1] at hsplit
          exact hsplit
  · intro hd
    rcases hd with hcore | ⟨t, hst, hcore⟩
    · unfold validate_plate_text
      simp [hcore]
    · subst hst
      unfold validate_plate_text
      rw [List.getLast?_concat]
      simp [List.dropLast_concat, hcore]

/-! ## Lemmas about the tracked-box confidence assignment -/

theorem argmaxIdx_lt_length : ∀ (l : List ℚ), l ≠ [] → argmaxIdx l < l.length
  | [], hl => absurd rfl hl
  | [_], _ => by simp [argmaxIdx]
  | x :: y :: xs, _ => by
      have ih := argmaxIdx_lt_length (y :: xs) (List.cons_ne_nil _ _)
      simp only [List.length_cons] at ih
      by_cases hc : (y :: xs).getD (argmaxIdx (y :: xs)) 0 ≤ x
      · simp only [argmaxIdx, if_pos hc, List.length_cons]
        omega
      · simp only [argmaxIdx, if_neg hc, List.length_cons]
        omega

theorem argmaxIdx_is_max :
    ∀ (l : List ℚ) (j : Nat), j < l.length →
      l.getD j 0 ≤ l.getD (argmaxIdx l) 0
  | [], j, hj => by simp at hj
  | [x], j, hj => by
      have hj0 : j = 0 := by simpa using hj
      subst hj0
      simp [argmaxIdx]
  | x :: y :: xs, j, hj => by
      by_cases hc : (y :: xs).getD (argmaxIdx (y :: xs)) 0 ≤ x
      · simp only [argmaxIdx, if_pos hc]
        cases j with
        | zero => simp
        | succ j' =>
            have hj' : j' < (y :: xs).length := by
              simpa [Nat.succ_lt_succ_iff] using hj
            have h1 : (x :: y :: xs).getD (j' + 1) 0 = (y :: xs).getD j' 0 :=
              List.getD_cons_succ
            rw [h1, List.getD_cons_zero]
            exact le_trans (argmaxIdx_is_max (y :: xs) j' hj') hc
      · simp only [argmaxIdx, if_neg hc]
        push_neg at hc
        cases j with
        | zero =>
            rw [List.getD_cons_zero, List.getD_cons_succ]
            exact le_of_lt hc
        | succ j' =>
            have hj' : j' < (y :: xs).length := by
              simpa [Nat.succ_lt_succ_iff] using hj
            have h1 : (x :: y :: xs).getD (j' + 1) 0 = (y :: xs).getD j' 0 :=
              List.getD_cons_succ
            rw [h1, List.getD_cons_succ]
            exact argmaxIdx_is_max (y :: xs) j' hj'

theorem getD_eq_zero_of_all_zero :
    ∀ {l : List ℚ}, (∀ a ∈ l, a = 0) → ∀ n, l.getD n 0 = 0
  | [], _, n => by simp
  | x :: t, h, 0 => by simpa using h x (List.mem_cons_self x t)
  | x :: t, h, n + 1 => by
      rw [List.getD_cons_succ]
      exact getD_eq_zero_of_all_zero (fun a ha => h a (List.mem_cons_of_mem x ha)) n

theorem argmaxIdx_all_zero :
    ∀ (l : List ℚ), (∀ a ∈ l, a = 0) → argmaxIdx l = 0
  | [], _ => rfl
  | [_], _ => rfl
  | x :: y :: xs, h => by
      have hx : x = 0 := h x (List.mem_cons_self _ _)
      have hc : (y :: xs).getD (argmaxIdx (y :: xs)) 0 ≤ x := by
        rw [getD_eq_zero_of_all_zero
          (fun a ha => h a (List.mem_cons_of_mem x ha)), hx]
      simp only [argmaxIdx, if_pos hc]

theorem iou_eq_zero_of_inter_eq_zero {t : TrackedBox} {d : Det}
    (h : inter t d = 0) : iou t d = 0 := by
  simp [iou, h]

/-- C4 counterexample: a single raw detection at (0,0)-(10,10) with
confidence 0.9 and a tracked box at (100,100)-(110,110) that overlaps no
raw detection: the assigned confidence is 0.9, not 0 as the claim states
(the all-zero overlap list makes `np.argmax` pick index 0). -/
theorem C4_counterexample :
    (detect_license_plates [⟨0, 0, 10, 10, 9/10⟩]
        [⟨100, 100, 110, 110, 7⟩]).map PlateDict.conf = [9/10] ∧
    (∀ d ∈ [(⟨0, 0, 10, 10, 9/10⟩ : Det)],
      inter ⟨100, 100, 110, 110, 7⟩ d = 0) ∧
    (9/10 : ℚ) ≠ 0 := by
  refine ⟨?_, ?_, by norm_num⟩
  · simp [detect_license_plates, assignConf, argmaxIdx]
  · intro d hd
    simp only [List.mem_singleton] at hd
    subst hd
    simp only [inter]
    norm_num

/-- C4 (amended): for every tracked box returned by the tracker the assigned
confidence is that of the raw detection whose IoU with the tracked box is
maximal (first such index on ties, numpy `argmax`); a tracked box that
overlaps no raw detection receives the confidence of the first raw
detection, because the IoU list is all zeros and `argmax` returns index 0 —
the `else 0.0` fallback is unreachable, as tracking only runs when at least
one raw detection exists, and with no raw detections no tracked boxes are
emitted at all. -/
theorem C4_amended (dets : List Det) (tracked : List TrackedBox)
    (hne : dets ≠ []) :
    (detect_license_plates dets tracked).length = tracked.length ∧
    ∀ k, (hk : k < tracked.length) →
      ∃ i, ∃ hi : i < dets.length,
        ((detect_license_plates dets tracked).getD k
            ⟨0, (0, 0, 0, 0), 0, 0, 0⟩).conf = (dets.get ⟨i, hi⟩).conf ∧
        (∀ j, (hj : j < dets.length) →
          iou (tracked.get ⟨k, hk⟩) (dets.get ⟨j, hj⟩) ≤
            iou (tracked.get ⟨k, hk⟩) (dets.get ⟨i, hi⟩)) ∧
        ((∀ d ∈ dets, inter (tracked.get ⟨k, hk⟩) d = 0) → i = 0) := by
  have hlen0 : 0 < dets.length := List.length_pos.2 hne
  constructor
  · simp [detect_license_plates, hlen0]
  · intro k hk
    have hmne : dets.map (iou (tracked.get ⟨k, hk⟩)) ≠ [] := by
      simpa [List.map_eq_nil_iff] using hne
    have hlt : argmaxIdx (dets.map (iou (tracked.get ⟨k, hk⟩))) < dets.length := by
      have := argmaxIdx_lt_length _ hmne
      simpa using this
    refine ⟨argmaxIdx (dets.map (iou (tracked.get ⟨k, hk⟩))), hlt, ?_, ?_, ?_⟩
    · have hk' : k < (tracked.map (fun t =>
          ({ id := t.id
             bbox := (pyInt t.x1, pyInt t.y1, pyInt t.x2, pyInt t.y2)
             conf := assignConf dets t
             width := t.x2 - t.x1
             height := t.y2 - t.y1 } : PlateDict))).length := by
        simpa using hk
      rw [detect_license_plates, if_pos hlen0, List.getD_eq_getElem _ _ hk',
        List.getElem_map]
      show assignConf dets (tracked.get ⟨k, hk⟩) = _
      rw [assignConf]
      have hl2 : (dets.map (iou (tracked.get ⟨k, hk⟩))).length ≠ 0 := by
        simp only [List.length_map]
        omega
      rw [if_pos hl2, List.getD_eq_getElem _ _ hlt]
      rfl
    · intro j hj
      have hj' : j < (dets.map (iou (tracked.get ⟨k, hk⟩))).length := by simpa using hj
      have := argmaxIdx_is_max (dets.map (iou (tracked.get ⟨k, hk⟩))) j hj'
      have hlt' : argmaxIdx (dets.map (iou (tracked.get ⟨k, hk⟩))) <
          (dets.map (iou (tracked.get ⟨k, hk⟩))).length := by simpa using hlt
      rw [List.getD_eq_getElem _ _ hj', List.getD_eq_getElem _ _ hlt',
        List.getElem_map, List.getElem_map] at this
      simpa [List.get_eq_getElem] using this
    · intro hz
      apply argmaxIdx_all_zero
      intro a ha
      rcases List.mem_map.1 ha with ⟨d, hd, rfl⟩
      exact iou_eq_zero_of_inter_eq_zero (hz d hd)

/-- Witness for C4 (amended) at one raw detection and one tracked box. -/
theorem C4_amended_witness :
    (detect_license_plates [⟨0, 0, 10, 10, 9/10⟩]
      [⟨100, 100, 110, 110, 7⟩]).length = 1 := by
  have h := C4_amended [⟨0, 0, 10, 10, 9/10⟩] [⟨100, 100, 110, 110, 7⟩]
    (List.cons_ne_nil _ _)
  simpa using h.1

/-! ## Lemmas about the worker-side history reconciliation -/

/-- Whatever the history entry for `k` is after the store branch, it is
either the just-stored incoming reading (when `k` is the stored track) or
exactly what it was before the step. -/
theorem workerStore_get (thr : Nat) (h : OD WEntry) (id : Nat) (r : OCRResult)
    (hw : OD.wf h) (k : Nat) {p' : WEntry}
    (hg : OD.get k (workerStore thr h id r).1 = some p') :
    (k = id ∧ p' = (r, r.confidence)) ∨ (k ≠ id ∧ OD.get k h = some p') := by
  have hw1 : OD.wf (OD.set id (r, r.confidence) h) := OD.wf_set hw
  have hw2 : OD.wf (if thr < (OD.set id (r, r.confidence) h).length
      then OD.popFront (OD.set id (r, r.confidence) h)
      else OD.set id (r, r.confidence) h) := by
    by_cases hth : thr < (OD.set id (r, r.confidence) h).length
    · rw [if_pos hth]
      exact OD.wf_popFront hw1
    · rw [if_neg hth]
      exact hw1
  have hg2 : OD.get k (if thr < (OD.set id (r, r.confidence) h).length
      then OD.popFront (OD.set id (r, r.confidence) h)
      else OD.set id (r, r.confidence) h) = some p' := by
    rcases hmv : OD.moveToEnd id (if thr < (OD.set id (r, r.confidence) h).length
        then OD.popFront (OD.set id (r, r.confidence) h)
        else OD.set id (r, r.confidence) h) with _ | h3
    · simp only [workerStore, hmv] at hg
      exact hg
    · simp only [workerStore, hmv] at hg
      rw [← OD.get_moveToEnd hw2 hmv k]
      exact hg
  have hg1 : OD.get k (OD.set id (r, r.confidence) h) = some p' := by
    by_cases hth : thr < (OD.set id (r, r.confidence) h).length
    · rw [if_pos hth] at hg2
      exact OD.get_popFront_some hw1 hg2
    · rw [if_neg hth] at hg2
      exact hg2
  by_cases hk : k = id
  · subst hk
    rw [OD.get_set_self] at hg1
    exact Or.inl ⟨rfl, (Option.some.injEq _ _ ▸ hg1).symm⟩
  · rw [OD.get_set_ne id k _ h hk] at hg1
    exact Or.inr ⟨hk, hg1⟩

/-- When the store branch completes (no KeyError from `move_to_end`), the
incoming reading is what got stored and what is used downstream. -/
theorem workerStore_ok (thr : Nat) (h : OD WEntry) (id : Nat) (r : OCRResult)
    (hw : OD.wf h) {h' : OD WEntry} {u : WEntry}
    (hstep : workerStore thr h id r = (h', some u)) :
    u = (r, r.confidence) ∧ OD.get id h' = some (r, r.confidence) := by
  have hw1 : OD.wf (OD.set id (r, r.confidence) h) := OD.wf_set hw
  have hw2 : OD.wf (if thr < (OD.set id (r, r.confidence) h).length
      then OD.popFront (OD.set id (r, r.confidence) h)
      else OD.set id (r, r.confidence) h) := by
    by_cases hth : thr < (OD.set id (r, r.confidence) h).length
    · rw [if_pos hth]
      exact OD.wf_popFront hw1
    · rw [if_neg hth]
      exact hw1
  rcases hmv : OD.moveToEnd id (if thr < (OD.set id (r, r.confidence) h).length
      then OD.popFront (OD.set id (r, r.confidence) h)
      else OD.set id (r, r.confidence) h) with _ | h3
  · simp only [workerStore, hmv, Prod.mk.injEq] at hstep
    exact absurd hstep.2 (by simp)
  · simp only [workerStore, hmv, Prod.mk.injEq, Option.some.injEq] at hstep
    obtain ⟨hh, hu⟩ := hstep
    subst hh
    subst hu
    refine ⟨rfl, ?_⟩
    rcases hgv : OD.get id (if thr < (OD.set id (r, r.confidence) h).length
        then OD.popFront (OD.set id (r, r.confidence) h)
        else OD.set id (r, r.confidence) h) with _ | v
    · rw [OD.moveToEnd, hgv] at hmv
      exact absurd hmv (by simp)
    · have hv : v = (r, r.confidence) := by
        have hg1 : OD.get id (OD.set id (r, r.confidence) h) = some v := by
          by_cases hth : thr < (OD.set id (r, r.confidence) h).length
          · rw [if_pos hth] at hgv
            exact OD.get_popFront_some hw1 hgv
          · rw [if_neg hth] at hgv
            exact hgv
        rw [OD.get_set_self] at hg1
        exact (Option.some.injEq _ _ ▸ hg1).symm
      rw [OD.get_moveToEnd hw2 hmv id, hgv, hv]

/-- C2 counterexample: with a stored entry for track 1 at confidence 1 and
an incoming different reading at the same confidence 1 — not strictly
greater — the worker replaces the stored reading (the source comparison at
worker_pool.py:59 is `<=`), refuting the "if and only if ... strictly
greater" replacement condition. -/
theorem C2_counterexample :
    workerReconcile 5
        [(1, (⟨"1234567890".toList, 1, .easyocr⟩, 1))] 1
        ⟨"0987654321".toList, 1, .easyocr⟩ =
      ([(1, (⟨"0987654321".toList, 1, .easyocr⟩, 1))],
        some (⟨"0987654321".toList, 1, .easyocr⟩, 1)) ∧
    ¬ ((1 : ℚ) < 1) ∧
    (⟨"0987654321".toList, 1, .easyocr⟩ : OCRResult) ≠
      ⟨"1234567890".toList, 1, .easyocr⟩ := by
  refine ⟨by decide, by norm_num, by decide⟩

/-- C2 (amended): for every reconciliation step that completes, the entry
stored for the track after the step is the incoming reading if and only if
no entry existed or the stored confidence was less than or equal to
(not: strictly less than) the incoming confidence; the reading used
downstream is the incoming one under that condition and the stored one
otherwise. -/
theorem C2_amended (thr : Nat) (h : OD WEntry) (id : Nat) (r : OCRResult)
    (hw : OD.wf h) (h' : OD WEntry) (u : WEntry)
    (hstep : workerReconcile thr h id r = (h', some u)) :
    (OD.get id h' = some (r, r.confidence) ↔
      (OD.get id h = none ∨ ∃ p, OD.get id h = some p ∧ p.2 ≤ r.confidence)) ∧
    u = (match OD.get id h with
         | none => (r, r.confidence)
         | some p => if p.2 ≤ r.confidence then (r, r.confidence) else p) := by
  rcases hget : OD.get id h with _ | prev
  · simp only [workerReconcile, hget] at hstep
    have hok := workerStore_ok thr h id r hw hstep
    exact ⟨⟨fun _ => Or.inl rfl, fun _ => hok.2⟩, hok.1⟩
  · simp only [workerReconcile, hget] at hstep
    by_cases hle : prev.2 ≤ r.confidence
    · rw [if_pos hle] at hstep
      have hok := workerStore_ok thr h id r hw hstep
      refine ⟨⟨fun _ => Or.inr ⟨prev, rfl, hle⟩, fun _ => hok.2⟩, ?_⟩
      show u = if prev.2 ≤ r.confidence then (r, r.confidence) else prev
      rw [hok.1, if_pos hle]
    · rw [if_neg hle] at hstep
      rcases hmv : OD.moveToEnd id h with _ | h3
      · rw [OD.moveToEnd, hget] at hmv
        exact absurd hmv (by simp)
      · rw [hmv] at hstep
        simp only [Prod.mk.injEq, Option.some.injEq] at hstep
        obtain ⟨hh, hu⟩ := hstep
        subst hh
        subst hu
        constructor
        · constructor
          · intro hx
            rw [OD.get_moveToEnd hw hmv id, hget] at hx
            have : prev.2 = r.confidence := by
              have := Option.some.injEq _ _ ▸ hx
              rw [this]
            exact absurd (le_of_eq this) hle
          · intro hx
            rcases hx with hx | ⟨p, hp, hple⟩
            · exact absurd hx (by simp)
            · rw [Option.some.injEq] at hp
              subst hp
              exact absurd hple hle
        · show prev = if prev.2 ≤ r.confidence then (r, r.confidence) else prev
          rw [if_neg hle]

/-- Witness for C2 (amended): a step with no prior entry stores the
incoming reading. -/
theorem C2_amended_witness :
    OD.wf ([] : OD WEntry) ∧
    workerReconcile 5 ([] : OD WEntry) 1 ⟨"1234567890".toList, 1, .easyocr⟩ =
      ([(1, (⟨"1234567890".toList, 1, .easyocr⟩, 1))],
        some (⟨"1234567890".toList, 1, .easyocr⟩, 1)) ∧
    (OD.get 1 [(1, ((⟨"1234567890".toList, 1, .easyocr⟩ : OCRResult), (1 : ℚ)))] =
        some (⟨"1234567890".toList, 1, .easyocr⟩, 1) ↔
      (OD.get 1 ([] : OD WEntry) = none ∨
        ∃ p, OD.get 1 ([] : OD WEntry) = some p ∧ p.2 ≤ (1 : ℚ))) := by
  refine ⟨by simp [OD.wf, OD.keys], by decide, ?_⟩
  have h := C2_amended 5 ([] : OD WEntry) 1 ⟨"1234567890".toList, 1, .easyocr⟩
    (by simp [OD.wf, OD.keys]) [(1, (⟨"1234567890".toList, 1, .easyocr⟩, 1))]
    (⟨"1234567890".toList, 1, .easyocr⟩, 1) (by decide)
  exact h.1

/-- C6: across any single worker history-reconciliation step (for any track
`id2` of the same camera), the confidence stored for a track `id` that is
present both before and after the step never decreases; chained over a run
of steps this gives monotonicity from creation to eviction. -/
theorem C6_confidence_monotone (thr : Nat) (h : OD WEntry) (id2 : Nat)
    (r : OCRResult) (hw : OD.wf h) (id : Nat) (p p' : WEntry)
    (hb : OD.get id h = some p)
    (ha : OD.get id (workerReconcile thr h id2 r).1 = some p') :
    p.2 ≤ p'.2 := by
  rcases hget : OD.get id2 h with _ | prev
  · simp only [workerReconcile, hget] at ha
    rcases workerStore_get thr h id2 r hw id ha with ⟨hk, _⟩ | ⟨_, hgp⟩
    · subst hk
      rw [hb] at hget
      exact absurd hget (by simp)
    · rw [hb] at hgp
      rw [(Option.some.injEq _ _ ▸ hgp : p = p')]
  · simp only [workerReconcile, hget] at ha
    by_cases hle : prev.2 ≤ r.confidence
    · rw [if_pos hle] at ha
      rcases workerStore_get thr h id2 r hw id ha with ⟨hk, hp'⟩ | ⟨_, hgp⟩
      · subst hk
        rw [hb, Option.some.injEq] at hget
        subst hget
        rw [hp']
        exact hle
      · rw [hb] at hgp
        rw [(Option.some.injEq _ _ ▸ hgp : p = p')]
    · rw [if_neg hle] at ha
      rcases hmv : OD.moveToEnd id2 h with _ | h3
      · rw [hmv] at ha
        simp only at ha
        rw [hb] at ha
        rw [(Option.some.injEq _ _ ▸ ha : p = p')]
      · rw [hmv] at ha
        simp only at ha
        rw [OD.get_moveToEnd hw hmv id, hb] at ha
        rw [(Option.some.injEq _ _ ▸ ha : p = p')]

/-- Witness for C6: a higher-confidence reading for the same track raises
the stored confidence from 1 to 2. -/
theorem C6_confidence_monotone_witness :
    OD.wf [(1, ((⟨"1234567890".toList, 1, .easyocr⟩ : OCRResult), (1 : ℚ)))] ∧
    OD.get 1 [(1, ((⟨"1234567890".toList, 1, .easyocr⟩ : OCRResult), (1 : ℚ)))] =
      some (⟨"1234567890".toList, 1, .easyocr⟩, 1) ∧
    ((⟨"1234567890".toList, (1 : ℚ), .easyocr⟩ : OCRResult), (1 : ℚ)).2 ≤
      ((⟨"0987654321".toList, (2 : ℚ), .easyocr⟩ : OCRResult), (2 : ℚ)).2 := by
  refine ⟨by simp [OD.wf, OD.keys], by decide, ?_⟩
  exact C6_confidence_monotone 5
    [(1, (⟨"1234567890".toList, 1, .easyocr⟩, 1))] 1
    ⟨"0987654321".toList, 2, .easyocr⟩ (by simp [OD.wf, OD.keys]) 1
    (⟨"1234567890".toList, 1, .easyocr⟩, 1)
    (⟨"0987654321".toList, 2, .easyocr⟩, 2) (by decide) (by decide)

/-! ## `submit_frame` -/

/-- C9: `submit_frame` offers the task only to the input queue with index
`camera_id mod pool_size`: all other queues are untouched; when that queue
is below capacity, the call returns `True` and appends the task to it; when
it is at (or beyond) capacity, the call returns `False` and the whole pool
state is unchanged, with the task enqueued nowhere; and after one item is
dequeued from a queue that was exactly at capacity, the next submission to
it is accepted. -/
theorem C9_submit_frame (p : PoolState) (camera_id frame : Nat)
    (timestamp : ℚ) (hp : 0 < p.input_queues.length) :
    (∀ j, j ≠ camera_id % p.input_queues.length →
      ((submit_frame p camera_id frame timestamp).2).input_queues.getD j [] =
        p.input_queues.getD j []) ∧
    ((p.input_queues.getD (camera_id % p.input_queues.length) []).length <
        queueCapacity →
      (submit_frame p camera_id frame timestamp).1 = true ∧
      ((submit_frame p camera_id frame timestamp).2).input_queues.getD
          (camera_id % p.input_queues.length) [] =
        p.input_queues.getD (camera_id % p.input_queues.length) [] ++
          [⟨camera_id, frame, timestamp⟩]) ∧
    (queueCapacity ≤
        (p.input_queues.getD (camera_id % p.input_queues.length) []).length →
      (submit_frame p camera_id frame timestamp).1 = false ∧
      (submit_frame p camera_id frame timestamp).2 = p) ∧
    ((p.input_queues.getD (camera_id % p.input_queues.length) []).length =
        queueCapacity →
      (submit_frame
        ⟨p.input_queues.set (camera_id % p.input_queues.length)
          (p.input_queues.getD (camera_id % p.input_queues.length) []).tail⟩
        camera_id frame timestamp).1 = true) := by
  have hlen : ¬ p.input_queues.length = 0 := Nat.pos_iff_ne_zero.1 hp
  have hwid : camera_id % p.input_queues.length < p.input_queues.length :=
    Nat.mod_lt _ hp
  refine ⟨?_, ?_, ?_, ?_⟩
  · intro j hj
    by_cases hfull :
        (p.input_queues.getD (camera_id % p.input_queues.length) []).length <
          queueCapacity
    · simp only [submit_frame, if_neg hlen, if_pos hfull]
      rw [List.getD_eq_getElem?_getD, List.getD_eq_getElem?_getD,
        List.getElem?_set_ne (fun he => hj he.symm)]
      exact (List.getD_eq_getElem?_getD _ _ _).symm
    · simp only [submit_frame, if_neg hlen, if_neg hfull]
  · intro hroom
    simp only [submit_frame, if_neg hlen, if_pos hroom]
    refine ⟨trivial, ?_⟩
    rw [List.getD_eq_getElem?_getD, List.getElem?_set_self hwid]
    rfl
  · intro hfull
    have hnot : ¬ (p.input_queues.getD (camera_id % p.input_queues.length) []).length <
        queueCapacity := by omega
    simp only [submit_frame, if_neg hlen, if_neg hnot]
    exact ⟨trivial, trivial⟩
  · intro hcap
    have hlen2 : ¬ (p.input_queues.set (camera_id % p.input_queues.length)
        (p.input_queues.getD (camera_id % p.input_queues.length) []).tail).length = 0 := by
      simpa [List.length_set] using hlen
    have hmod2 : camera_id % (p.input_queues.set (camera_id % p.input_queues.length)
        (p.input_queues.getD (camera_id % p.input_queues.length) []).tail).length =
        camera_id % p.input_queues.length := by
      rw [List.length_set]
    have htail : ((p.input_queues.set (camera_id % p.input_queues.length)
        (p.input_queues.getD (camera_id % p.input_queues.length) []).tail).getD
          (camera_id % p.input_queues.length) []) =
        (p.input_queues.getD (camera_id % p.input_queues.length) []).tail := by
      rw [List.getD_eq_getElem?_getD, List.getElem?_set_self (by simpa using hwid)]
      rfl
    have hroom2 : ((p.input_queues.set (camera_id % p.input_queues.length)
        (p.input_queues.getD (camera_id % p.input_queues.length) []).tail).getD
          (camera_id % (p.input_queues.set (camera_id % p.input_queues.length)
            (p.input_queues.getD (camera_id % p.input_queues.length) []).tail).length)
          []).length < queueCapacity := by
      rw [hmod2, htail, List.length_tail, hcap]
      simp [queueCapacity]
    simp only [submit_frame, if_neg hlen2, if_pos hroom2]

/-- Witness for C9 on a one-queue pool whose queue is empty. -/
theorem C9_submit_frame_witness :
    0 < (PoolState.mk [[]]).input_queues.length ∧
    (submit_frame ⟨[[]]⟩ 3 0 0).1 = true := by
  refine ⟨by decide, ?_⟩
  have h := C9_submit_frame ⟨[[]]⟩ 3 0 0 (by decide)
  exact (h.2.1 (by decide)).1

/-! ## The worker task body -/

theorem getTrackerEnsure_trackers (camera_id : Nat) (s : WorkerState) (c : Nat) :
    OD.get c (getTrackerEnsure camera_id s).trackers =
      if c = camera_id then
        some ((OD.get camera_id s.trackers).getD SortTracker.new)
      else OD.get c s.trackers := by
  rcases hget : OD.get camera_id s.trackers with _ | t
  · simp only [getTrackerEnsure, hget]
    by_cases hc : c = camera_id
    · subst hc
      rw [if_pos rfl, OD.get_set_self]
      rfl
    · rw [if_neg hc, OD.get_set_ne _ _ _ _ hc]
  · simp only [getTrackerEnsure, hget]
    by_cases hc : c = camera_id
    · subst hc
      rw [if_pos rfl, hget]
      rfl
    · rw [if_neg hc]

theorem getHistoryEnsure_trackers (camera_id : Nat) (s : WorkerState) :
    (getHistoryEnsure camera_id s).trackers = s.trackers := by
  rcases hget : OD.get camera_id s.histories with _ | t <;>
    simp only [getHistoryEnsure, hget]

theorem ensure_outputs (camera_id : Nat) (s : WorkerState) :
    (getHistoryEnsure camera_id (getTrackerEnsure camera_id s)).outputs =
      s.outputs := by
  rcases h1 : OD.get camera_id (getTrackerEnsure camera_id s).histories with _ | t <;>
    rcases h2 : OD.get camera_id s.trackers with _ | t' <;>
      simp only [getHistoryEnsure, getTrackerEnsure, h2] at h1 ⊢ <;>
        simp [h1]

/-- C1 (evaluation of the code at the failing input): for every worker
state and every dequeued task, the two-argument call into the one-parameter
`detect_license_plates` raises `TypeError`, the task is abandoned with no
emitted result, and no tracker — in particular not the task camera's own —
is fed the frame's detections: the camera's tracker after the step is its
previous instance unchanged (or a freshly created, never-fed one), and
every other camera's tracker is exactly as it was before. -/
theorem C1_worker_feeds_no_tracker (s : WorkerState) (camera_id : Nat)
    (frameDets : List Det) (trackedOut : List TrackedBox) :
    (model_worker_step s camera_id frameDets trackedOut).2 = none ∧
    (∀ c, OD.get c (model_worker_step s camera_id frameDets trackedOut).1.trackers =
      if c = camera_id then
        some ((OD.get camera_id s.trackers).getD SortTracker.new)
      else OD.get c s.trackers) ∧
    (model_worker_step s camera_id frameDets trackedOut).1.outputs = s.outputs := by
  have hcall : pyCall detect_license_plates_paramCount model_worker_detect_argCount
      (fun _ => detect_license_plates frameDets trackedOut) =
      Except.error PyError.typeError := by
    simp [pyCall, detect_license_plates_paramCount, model_worker_detect_argCount]
  refine ⟨?_, ?_, ?_⟩
  · simp only [model_worker_step, hcall]
  · intro c
    simp only [model_worker_step, hcall]
    rw [show (getHistoryEnsure camera_id (getTrackerEnsure camera_id s)).trackers =
        (getTrackerEnsure camera_id s).trackers from
      getHistoryEnsure_trackers camera_id (getTrackerEnsure camera_id s)]
    exact getTrackerEnsure_trackers camera_id s c
  · simp only [model_worker_step, hcall]
    exact ensure_outputs camera_id s

/-! ## Lemmas about the sink reconciliation -/

/-- The same-text branch (result_processor.py:73-75): refresh recency only. -/
theorem sinkStep_prev_same (reg : List RegPlate) (camera_id : Nat)
    (timestamp : ℚ) (s : SinkState) (d : SinkDetection)
    (htext : d.text ≠ []) {e : SinkEntry}
    (hget : OD.get d.id s.history = some e) (he : e.text = d.text) :
    sinkStep reg camera_id timestamp s d =
      { s with history := (OD.moveToEnd d.id s.history).getD s.history } := by
  have hne : ¬ (e.text ≠ d.text) := fun hne => hne he
  simp only [sinkStep, if_neg htext, hget, if_neg hne]

/-- The no-prior-entry branch (result_processor.py:77-100): either the
registry lookup aborts (several matching rows) and the state is unchanged,
or exactly one record is appended and the entry for the track remembers
the detected text, the confidence and the fresh record id. -/
theorem sinkStep_create_cases (reg : List RegPlate) (camera_id : Nat)
    (timestamp : ℚ) (s : SinkState) (d : SinkDetection)
    (hw : OD.wf s.history) (htext : d.text ≠ [])
    (hnone : OD.get d.id s.history = none) :
    sinkStep reg camera_id timestamp s d = s ∨
    ((sinkStep reg camera_id timestamp s d).db.length = s.db.length + 1 ∧
      OD.get d.id (sinkStep reg camera_id timestamp s d).history =
        some ⟨d.text, d.overall_confidence, s.nextId⟩) := by
  rcases hlook : scalarOneOrNone (regMatches reg d.text) with _ | plateOpt
  · left
    simp only [sinkStep, if_neg htext, hnone, hlook]
  · right
    have hgs : OD.get d.id
        (OD.set d.id ⟨d.text, d.overall_confidence, s.nextId⟩ s.history) =
        some ⟨d.text, d.overall_confidence, s.nextId⟩ := OD.get_set_self _ _ _
    rcases hmv : OD.moveToEnd d.id
        (OD.set d.id ⟨d.text, d.overall_confidence, s.nextId⟩ s.history) with _ | h3
    · rw [OD.moveToEnd, hgs] at hmv
      exact absurd hmv (by simp)
    · constructor
      · simp only [sinkStep, if_neg htext, hnone, hlook, hmv]
        simp [List.length_append]
      · simp only [sinkStep, if_neg htext, hnone, hlook, hmv]
        rw [Option.getD_some]
        rw [OD.get_moveToEnd (OD.wf_set hw) hmv d.id, hgs]

/-- C7: reconciling a detection whose track id already has a history entry
with the same recognized text performs no database write — only the
entry's recency is refreshed and no stored value changes; consequently,
starting with no entry for the track, reconciling the same detection twice
appends at most one record (the first call appends at most one and the
second appends none). -/
theorem C7_reconcile_idempotent (reg : List RegPlate) (camera_id : Nat)
    (timestamp : ℚ) (s : SinkState) (d : SinkDetection)
    (hw : OD.wf s.history) (htext : d.text ≠ []) :
    (∀ e, OD.get d.id s.history = some e → e.text = d.text →
      (sinkStep reg camera_id timestamp s d).db = s.db ∧
      (∀ k, OD.get k (sinkStep reg camera_id timestamp s d).history =
        OD.get k s.history)) ∧
    (OD.get d.id s.history = none →
      (sinkStep reg camera_id timestamp
          (sinkStep reg camera_id timestamp s d) d).db =
        (sinkStep reg camera_id timestamp s d).db ∧
      (sinkStep reg camera_id timestamp s d).db.length ≤ s.db.length + 1) := by
  constructor
  · intro e hget he
    rw [sinkStep_prev_same reg camera_id timestamp s d htext hget he]
    refine ⟨rfl, ?_⟩
    intro k
    show OD.get k ((OD.moveToEnd d.id s.history).getD s.history) = _
    rcases hmv : OD.moveToEnd d.id s.history with _ | h3
    · rw [Option.getD_none]
    · rw [Option.getD_some]
      exact OD.get_moveToEnd hw hmv k
  · intro hnone
    rcases sinkStep_create_cases reg camera_id timestamp s d hw htext hnone with
      heq | ⟨hlen, hget1⟩
    · constructor
      · rw [heq, heq]
      · rw [heq]
        omega
    · constructor
      · rw [sinkStep_prev_same reg camera_id timestamp
          (sinkStep reg camera_id timestamp s d) d htext hget1 rfl]
      · omega

/-- Witness for C7 on a state holding the entry for track 1 with matching
text. -/
theorem C7_reconcile_idempotent_witness :
    OD.wf ([(1, ⟨"1234567890".toList, 1, 0⟩)] : OD SinkEntry) ∧
    ("1234567890".toList ≠ []) ∧
    (sinkStep [] 5 0 ⟨[(1, ⟨"1234567890".toList, 1, 0⟩)], [], 1⟩
        ⟨1, "1234567890".toList, 1⟩).db = [] := by
  refine ⟨by simp [OD.wf, OD.keys], by decide, ?_⟩
  have h := C7_reconcile_idempotent [] 5 0
    ⟨[(1, ⟨"1234567890".toList, 1, 0⟩)], [], 1⟩ ⟨1, "1234567890".toList, 1⟩
    (by simp [OD.wf, OD.keys]) (by decide)
  exact (h.1 ⟨"1234567890".toList, 1, 0⟩ (by decide) (by decide)).1

/-! ## Lemmas about the sink-history recency trace -/

theorem runTrace_append {α : Type} (h : OD α) (t1 t2 : List (SinkOp α)) :
    runTrace h (t1 ++ t2) = runTrace (runTrace h t1) t2 := by
  simp [runTrace, List.foldl_append]

theorem traceValid_append {α : Type} (h : OD α) (t1 t2 : List (SinkOp α)) :
    traceValid h (t1 ++ t2) =
      (traceValid h t1 && traceValid (runTrace h t1) t2) := by
  induction t1 generalizing h with
  | nil => simp [traceValid, runTrace]
  | cons op t ih =>
      simp only [List.cons_append, traceValid, List.append_eq]
      rw [ih (applySinkOp h op)]
      have hrt : runTrace h (op :: t) = runTrace (applySinkOp h op) t := rfl
      rw [hrt, Bool.and_assoc]

theorem lastTouchIdx_append_single {α : Type} (t : List (SinkOp α))
    (op : SinkOp α) (k : Nat) :
    lastTouchIdx (t ++ [op]) k =
      if op.key = k then some t.length else lastTouchIdx t k := by
  induction t with
  | nil =>
      by_cases hk : op.key = k <;> simp [lastTouchIdx, hk]
  | cons op2 t ih =>
      by_cases hk : op.key = k
      · rcases hl : lastTouchIdx t k with _ | i <;>
          simp [lastTouchIdx, ih, hk, hl]
      · rcases hl : lastTouchIdx t k with _ | i <;>
          simp [lastTouchIdx, ih, hk, hl]

theorem lastTouchIdx_lt_length {α : Type} :
    ∀ {t : List (SinkOp α)} {k : Nat} {i : Nat},
      lastTouchIdx t k = some i → i < t.length
  | [], _, _, h => by simp [lastTouchIdx] at h
  | op :: t, k, i, h => by
      rcases hl : lastTouchIdx t k with _ | j
      · simp only [lastTouchIdx, hl] at h
        by_cases hk : op.key = k
        · rw [if_pos hk, Option.some.injEq] at h
          subst h
          simp
        · rw [if_neg hk] at h
          exact absurd h (by simp)
      · simp only [lastTouchIdx, hl, Option.some.injEq] at h
        subst h
        have := lastTouchIdx_lt_length hl
        simp only [List.length_cons]
        omega

theorem nodup_erase_append_self {l : List Nat} (hl : l.Nodup) (k : Nat) :
    (l.erase k ++ [k]).Nodup := by
  have h1 := hl.erase k
  have h2 : k ∉ l.erase k := fun ha =>
    ((List.Nodup.mem_erase_iff hl).1 ha).1 rfl
  simp [List.nodup_append, h1, h2]

theorem keys_applySinkOp_ins {α : Type} (h : OD α) (k : Nat) (v : α) :
    OD.keys (applySinkOp h (.ins k v)) = (OD.keys h).erase k ++ [k] := by
  have hg : OD.get k (OD.set k v h) = some v := OD.get_set_self _ _ _
  rcases hmv : OD.moveToEnd k (OD.set k v h) with _ | h3
  · rw [OD.moveToEnd, hg] at hmv
    exact absurd hmv (by simp)
  · simp only [applySinkOp, hmv, Option.getD_some]
    rw [OD.keys_moveToEnd hmv]
    by_cases hm : k ∈ OD.keys h
    · rw [OD.keys_set_of_mem _ hm]
    · rw [OD.keys_set_of_not_mem _ hm, List.erase_append_right _ hm,
        List.erase_cons_head, List.erase_of_not_mem hm, List.append_nil]

theorem keys_applySinkOp_touch {α : Type} (h : OD α) (k : Nat)
    (hk : (OD.get k h).isSome = true) :
    OD.keys (applySinkOp h (.touch k)) = (OD.keys h).erase k ++ [k] := by
  rcases hg : OD.get k h with _ | v
  · rw [hg] at hk
    exact absurd hk (by simp)
  · rcases hmv : OD.moveToEnd k h with _ | h3
    · rw [OD.moveToEnd, hg] at hmv
      exact absurd hmv (by simp)
    · simp only [applySinkOp, hmv, Option.getD_some]
      exact OD.keys_moveToEnd hmv

/-- Invariant of the sink history under its operations: in a state reached
by a valid trace every present key has a recorded last touch, and the
iteration order (oldest first) is exactly the order of last touches. -/
theorem runTrace_sorted {α : Type} :
    ∀ tr : List (SinkOp α), traceValid [] tr = true →
      OD.wf (runTrace [] tr) ∧
      (∀ k ∈ OD.keys (runTrace [] tr), ∃ i, lastTouchIdx tr k = some i) ∧
      (OD.keys (runTrace [] tr)).Pairwise
        (fun a b => (lastTouchIdx tr a).getD 0 < (lastTouchIdx tr b).getD 0) := by
  intro tr
  induction tr using List.reverseRecOn with
  | nil =>
      intro _
      refine ⟨by simp [OD.wf, OD.keys, runTrace], by simp [OD.keys, runTrace], ?_⟩
      simp [OD.keys, runTrace]
  | append_singleton t op ih =>
      intro hv
      rw [traceValid_append, Bool.and_eq_true] at hv
      obtain ⟨hv1, hv2⟩ := hv
      obtain ⟨hwf, hsome, hpair⟩ := ih hv1
      have hrun : runTrace ([] : OD α) (t ++ [op]) =
          applySinkOp (runTrace [] t) op := by
        rw [runTrace_append]
        rfl
      have hkeys : OD.keys (runTrace ([] : OD α) (t ++ [op])) =
          (OD.keys (runTrace [] t)).erase op.key ++ [op.key] := by
        rw [hrun]
        cases op with
        | ins k v => exact keys_applySinkOp_ins _ k v
        | touch k =>
            apply keys_applySinkOp_touch
            simp only [traceValid, Bool.and_eq_true] at hv2
            exact hv2.1
      have hstable : ∀ k2, k2 ≠ op.key →
          lastTouchIdx (t ++ [op]) k2 = lastTouchIdx t k2 := by
        intro k2 hk2
        rw [lastTouchIdx_append_single, if_neg (fun he => hk2 he.symm)]
      have hself : lastTouchIdx (t ++ [op]) op.key = some t.length := by
        rw [lastTouchIdx_append_single, if_pos rfl]
      refine ⟨?_, ?_, ?_⟩
      · unfold OD.wf
        rw [hkeys]
        exact nodup_erase_append_self hwf op.key
      · intro k hk
        rw [hkeys] at hk
        rcases List.mem_append.1 hk with hk | hk
        · have hne : k ≠ op.key :=
            fun he => ((List.Nodup.mem_erase_iff hwf).1 (he ▸ hk)).1 rfl
          rw [hstable k hne]
          exact hsome k (List.mem_of_mem_erase hk)
        · rw [List.mem_singleton.1 hk, hself]
          exact ⟨t.length, rfl⟩
      · rw [hkeys, List.pairwise_append]
        refine ⟨?_, List.pairwise_singleton _ _, ?_⟩
        · refine List.Pairwise.imp_of_mem ?_ (hpair.sublist (List.erase_sublist _ _))
          intro a b ha hb hr
          have hna : a ≠ op.key :=
            fun he => ((List.Nodup.mem_erase_iff hwf).1 (he ▸ ha)).1 rfl
          have hnb : b ≠ op.key :=
            fun he => ((List.Nodup.mem_erase_iff hwf).1 (he ▸ hb)).1 rfl
          rw [hstable a hna, hstable b hnb]
          exact hr
        · intro a ha b hb
          rw [List.mem_singleton.1 hb]
          have hna : a ≠ op.key :=
            fun he => ((List.Nodup.mem_erase_iff hwf).1 (he ▸ ha)).1 rfl
          obtain ⟨i, hi⟩ := hsome a (List.mem_of_mem_erase ha)
          rw [hstable a hna, hself, hi, Option.getD_some, Option.getD_some]
          exact lastTouchIdx_lt_length hi

/-- C3 counterexample: after inserting track 1, then track 2, then touching
track 1 (a no-op read of its unchanged text, lines 73-74 of
result_processor.py), a maintenance pass with cap 1 evicts track 2 first —
even though track 1 is the least-recently-inserted entry (its only `ins`
is at position 0, track 2's at position 1).  Eviction order therefore
depends on later touches and is not oldest-insertion order. -/
theorem C3_counterexample :
    firstEvictedKey 1 (runTrace ([] : OD Nat)
      [.ins 1 10, .ins 2 20, .touch 1]) = some 2 ∧
    firstInsIdx ([.ins 1 10, .ins 2 20, .touch 1] : List (SinkOp Nat)) 1 =
      some 0 ∧
    firstInsIdx ([.ins 1 10, .ins 2 20, .touch 1] : List (SinkOp Nat)) 2 =
      some 1 ∧
    1 ∈ OD.keys (runTrace ([] : OD Nat) [.ins 1 10, .ins 2 20, .touch 1]) ∧
    (2 : Nat) ≠ 1 := by
  refine ⟨by decide, by decide, by decide, by decide, by decide⟩

/-- C3 (amended): whenever the sink's reconciliation history exceeds the
configured cap, the maintenance pass evicts first the entry at the oldest
position, and under any valid operation history that entry is the
least-recently-touched one: its last touch (insert, in-place update or
no-op read, all of which call `move_to_end`) is strictly earlier than that
of every other present entry. -/
theorem C3_amended {α : Type} (tr : List (SinkOp α)) (thr : Nat)
    (hv : traceValid [] tr = true)
    (hlen : thr < (runTrace [] tr).length) :
    (sinkMaintain thr (runTrace [] tr) =
      sinkMaintain thr (OD.popFront (runTrace [] tr))) ∧
    ∃ k, firstEvictedKey thr (runTrace [] tr) = some k ∧
      k ∈ OD.keys (runTrace [] tr) ∧
      ∀ k2 ∈ OD.keys (runTrace [] tr), k2 ≠ k →
        (lastTouchIdx tr k).getD 0 < (lastTouchIdx tr k2).getD 0 := by
  obtain ⟨hwf, hsome, hpair⟩ := runTrace_sorted tr hv
  rcases hr : runTrace ([] : OD α) tr with _ | ⟨p, t2⟩
  · rw [hr] at hlen
    simp at hlen
  · rw [hr] at hlen hpair
    constructor
    · have hunf : sinkMaintain thr (p :: t2) =
          if thr < (p :: t2).length then sinkMaintain thr t2 else p :: t2 := rfl
      rw [hunf, if_pos hlen]
      rfl
    · refine ⟨p.1, ?_, ?_, ?_⟩
      · unfold firstEvictedKey
        rw [if_pos hlen]
        rfl
      · simp [OD.keys]
      · intro k2 hk2 hne
        simp only [OD.keys, List.map_cons, List.mem_cons] at hk2
        rcases hk2 with hk2 | hk2
        · exact absurd hk2 hne
        · exact List.rel_of_pairwise_cons hpair (by simpa [OD.keys] using hk2)

/-- Witness for C3 (amended) on the three-operation trace of the
counterexample. -/
theorem C3_amended_witness :
    traceValid ([] : OD Nat) [.ins 1 10, .ins 2 20, .touch 1] = true ∧
    1 < (runTrace ([] : OD Nat) [.ins 1 10, .ins 2 20, .touch 1]).length ∧
    (∃ k, firstEvictedKey 1 (runTrace ([] : OD Nat)
        [.ins 1 10, .ins 2 20, .touch 1]) = some k ∧
      k ∈ OD.keys (runTrace ([] : OD Nat) [.ins 1 10, .ins 2 20, .touch 1]) ∧
      ∀ k2 ∈ OD.keys (runTrace ([] : OD Nat) [.ins 1 10, .ins 2 20, .touch 1]),
        k2 ≠ k →
        (lastTouchIdx ([.ins 1 10, .ins 2 20, .touch 1] : List (SinkOp Nat))
            k).getD 0 <
          (lastTouchIdx ([.ins 1 10, .ins 2 20, .touch 1] : List (SinkOp Nat))
            k2).getD 0) := by
  refine ⟨by decide, by decide, ?_⟩
  exact (C3_amended [.ins 1 10, .ins 2 20, .touch 1] 1 (by decide) (by decide)).2

end SVA
